import Mathlib

/-! Shallow embedding of `svd_parser.py`, a generator that turns an SVD
register description into C typedefs and register access lines, together
with proofs about its field-layout and rendering behaviour.  Numeric texts
are parsed with Python `int` semantics, layout members model the packed
struct body, and `extract_typedef` mirrors the Python function of the same
name. -/

/-- Parsed view of a `field` element: the texts of its `name`, `bitOffset`
and `bitWidth` children, exactly as read by `extract_typedef`. -/
structure FieldElem where
  name : String
  bitOffset : String
  bitWidth : String
deriving DecidableEq

/-- Parsed view of a `register` element: the texts of the children that
`extract_typedef` reads.  Optional children are `Option`; reading a missing
one raises `AttributeError` in the source. -/
structure RegisterElem where
  name : String
  dim : Option String
  dimIncrement : Option String
  dimIndex : Option String
  size : String
  addressOffset : String
  fields : List FieldElem
deriving DecidableEq

/-- Parsed view of a `peripheral` element as read by `list_registers`. -/
structure PeripheralElem where
  name : String
  baseAddress : String
  derivedFrom : Option String
  registers : List RegisterElem
deriving DecidableEq

/-- Value of a hexadecimal digit character, if it is one. -/
def hexVal (c : Char) : Option Nat :=
  if '0' ≤ c ∧ c ≤ '9' then some (c.toNat - 48)
  else if 'a' ≤ c ∧ c ≤ 'f' then some (c.toNat - 87)
  else if 'A' ≤ c ∧ c ≤ 'F' then some (c.toNat - 55)
  else none

/-- Value of a digit character under the given base. -/
def digitVal (base : Nat) (c : Char) : Option Nat :=
  match hexVal c with
  | some v => if v < base then some v else none
  | none => none

/-- Accumulating digit-string parse under the given base. -/
def parseDigitsAux (base : Nat) : List Char → Nat → Option Nat
  | [], acc => some acc
  | c :: cs, acc =>
    match digitVal base c with
    | some v => parseDigitsAux base cs (acc * base + v)
    | none => none

/-- Parse a nonempty digit string under the given base. -/
def parseDigits (base : Nat) : List Char → Option Nat
  | [] => none
  | c :: cs => parseDigitsAux base (c :: cs) 0

/-- Drop surrounding whitespace, as Python `int` does before parsing. -/
def pyStripChars (cs : List Char) : List Char :=
  ((cs.dropWhile Char.isWhitespace).reverse.dropWhile Char.isWhitespace).reverse

/-- Split an optional leading sign; `true` means negative. -/
def splitSign : List Char → Bool × List Char
  | '-' :: cs => (true, cs)
  | '+' :: cs => (false, cs)
  | cs => (false, cs)

/-- Apply a parsed sign to a digit-string value. -/
def signedVal (neg : Bool) (n : Nat) : Int :=
  if neg then -(n : Int) else (n : Int)

/-- Python `int(s)`: strip, optional sign, decimal digits.  Underscore
digit separators are not modelled. -/
def pyIntDec (s : String) : Option Int :=
  match splitSign (pyStripChars s.data) with
  | (neg, cs) => (parseDigits 10 cs).map (signedVal neg)

/-- Drop an optional `0x` or `0X` marker, allowed by Python `int(s, 16)`. -/
def dropHexMark : List Char → List Char
  | '0' :: 'x' :: cs => cs
  | '0' :: 'X' :: cs => cs
  | cs => cs

/-- Python `int(s, 16)`: strip, optional sign, optional marker, hex digits. -/
def pyIntBase16 (s : String) : Option Int :=
  match splitSign (pyStripChars s.data) with
  | (neg, cs) => (parseDigits 16 (dropHexMark cs)).map (signedVal neg)

/-- Python `int(s, 0)`: the base is read off the literal's marker; a
decimal literal must not start with a superfluous zero. -/
def pyIntBase0 (s : String) : Option Int :=
  match splitSign (pyStripChars s.data) with
  | (neg, cs) =>
    match cs with
    | '0' :: 'x' :: rest => (parseDigits 16 rest).map (signedVal neg)
    | '0' :: 'X' :: rest => (parseDigits 16 rest).map (signedVal neg)
    | '0' :: 'b' :: rest => (parseDigits 2 rest).map (signedVal neg)
    | '0' :: 'B' :: rest => (parseDigits 2 rest).map (signedVal neg)
    | '0' :: 'o' :: rest => (parseDigits 8 rest).map (signedVal neg)
    | '0' :: 'O' :: rest => (parseDigits 8 rest).map (signedVal neg)
    | rest =>
      if rest.all (fun c => c = '0') then (parseDigits 10 rest).map (signedVal neg)
      else if rest.head? = some '0' then none
      else (parseDigits 10 rest).map (signedVal neg)

/-- Python `hex(n)`: lowercase hexadecimal with a `0x` marker. -/
def pyHex (n : Int) : String :=
  if n < 0 then "-0x" ++ (Nat.toDigits 16 n.natAbs).asString
  else "0x" ++ (Nat.toDigits 16 n.toNat).asString

/-- Source `get_register_type`: smallest named unsigned storage type, with
a generic pass-through for other widths. -/
def get_register_type (size : Int) : String :=
  if size = 8 then "uint8_t"
  else if size = 16 then "uint16_t"
  else if size = 32 then "uint32_t"
  else if size = 64 then "uint64_t"
  else "uint" ++ toString size ++ "_t"

/-- One field entry as stored in the source's `field_dict`: name, start
bit, end bit (inclusive). -/
abbrev Entry := String × Int × Int

/-- Name of a field entry. -/
def entryName (x : Entry) : String := x.1

/-- Start bit of a field entry. -/
def startBit (x : Entry) : Int := x.2.1

/-- End bit (inclusive) of a field entry. -/
def endBit (x : Entry) : Int := x.2.2

/-- One member of the generated packed struct. -/
inductive LayoutMember where
  | Named (name : String) (width : Int)
  | Reserved (width : Int)
deriving DecidableEq

/-- Bit width of a layout member. -/
def LayoutMember.width : LayoutMember → Int
  | .Named _ w => w
  | .Reserved w => w

/-- Whether a layout member is a named field. -/
def LayoutMember.isNamedMember : LayoutMember → Bool
  | .Named _ _ => true
  | .Reserved _ => false

/-- Parse each field's `bitOffset` and `bitWidth` texts (Python `int`,
decimal), yielding (name, start bit, end bit) as in the field loop of
`extract_typedef`. -/
def parseFields : List FieldElem → Except String (List Entry)
  | [] => .ok []
  | f :: rest =>
    match pyIntDec f.bitOffset with
    | none => .error "ValueError"
    | some s =>
      match pyIntDec f.bitWidth with
      | none => .error "ValueError"
      | some w =>
        match parseFields rest with
        | .error e => .error e
        | .ok es => .ok ((f.name, s, s + w - 1) :: es)

/-- Python dict assignment `d[k] = v`: replace the value in place if the
key exists, otherwise append the pair. -/
def dictInsert : List Entry → String → Int × Int → List Entry
  | [], k, v => [(k, v)]
  | (k', v') :: rest, k, v =>
    if k' = k then (k, v) :: rest else (k', v') :: dictInsert rest k v

/-- Fold the parsed fields into the dict, in document order. -/
def dictFold (d : List Entry) : List Entry → List Entry
  | [] => d
  | x :: rest => dictFold (dictInsert d x.1 x.2) rest

/-- Ordering used by the source's `sorted(..., key=lambda x: x[1][0])`. -/
def entryLE (a b : Entry) : Prop := startBit a ≤ startBit b

instance : DecidableRel entryLE := fun a b => Int.decLe (startBit a) (startBit b)

instance : IsTotal Entry entryLE := ⟨fun a b => Int.le_total (startBit a) (startBit b)⟩

instance : IsTrans Entry entryLE := ⟨fun _ _ _ h h' => le_trans h h'⟩

/-- Python's stable `sorted` of the dict items by start bit. -/
def pySortEntries (es : List Entry) : List Entry := List.insertionSort entryLE es

/-- Entries as iterated by the struct-building loop: deduplicated by name
(last assignment wins), then stably sorted by start bit. -/
def fieldEntries (fields : List FieldElem) : Except String (List Entry) :=
  match parseFields fields with
  | .error e => .error e
  | .ok es => .ok (pySortEntries (dictFold [] es))

/-- The struct-member loop of `extract_typedef`: a reserved gap when
`last_end_bit + 1` differs from the start bit, then the named member, then
the loop continues with `last_end_bit` set to the field's end bit. -/
def layoutLoop : List Entry → Int → List LayoutMember
  | [], _ => []
  | x :: rest, lastEnd =>
    (if lastEnd + 1 = startBit x then ([] : List LayoutMember)
     else [.Reserved (startBit x - lastEnd - 1)]) ++
    (.Named (entryName x) (endBit x - startBit x + 1) :: layoutLoop rest (endBit x))

/-- Value of `last_end_bit` after the struct-member loop. -/
def lastEndOf : List Entry → Int → Int
  | [], lastEnd => lastEnd
  | x :: rest, _ => lastEndOf rest (endBit x)

/-- Full member sequence for one register: the loop output plus the
trailing reserved run emitted when `last_end_bit < total_bits - 1`. -/
def layoutMembers (es : List Entry) (size : Int) : List LayoutMember :=
  layoutLoop es (-1) ++
  (if lastEndOf es (-1) < size - 1 then [.Reserved (size - lastEndOf es (-1) - 1)]
   else [])

/-- The Field Layout Engine: declared size plus declared fields to the
ordered member sequence. -/
def fieldLayout (size : Int) (fields : List FieldElem) :
    Except String (List LayoutMember) :=
  match fieldEntries fields with
  | .error e => .error e
  | .ok es => .ok (layoutMembers es size)

/-- Spaces appended after a scalar field name: `" " * (5 - len(name))`,
empty when the name is five characters or longer. -/
def padTo5 (n : String) : String := String.mk (List.replicate (5 - n.length) ' ')

/-- Struct-member line in the array branch of `extract_typedef`. -/
def renderMemberArray (t : String) : LayoutMember → String
  | .Named n w => "    " ++ t ++ " " ++ n ++ ": " ++ toString w ++ ";"
  | .Reserved w => "    " ++ t ++ " : " ++ toString w ++ ";"

/-- Struct-member line in the scalar branch of `extract_typedef` (the
field name is padded towards five characters). -/
def renderMemberScalar (t : String) : LayoutMember → String
  | .Named n w => "    " ++ t ++ " " ++ n ++ padTo5 n ++ ": " ++ toString w ++ ";"
  | .Reserved w => "    " ++ t ++ " : " ++ toString w ++ ";"

/-- Opening line of the generated typedef. -/
def typedefOpenLine : String := "typedef struct __attribute__((__packed__)) \x7b"

/-- Closing line of the generated typedef, naming the struct type. -/
def typedefCloseLine (pn rn : String) : String := "\x7d " ++ pn ++ "_" ++ rn ++ "bits_t;"

/-- Raw-access line in the array branch: an un-dereferenced volatile
pointer to the storage type. -/
def arrayRawLine (pn rn t addr : String) : String :=
  "#define " ++ pn ++ "_" ++ rn ++ " ((volatile " ++ t ++ " *)" ++ addr ++ ")"

/-- Bitfield-view line in the array branch: an un-dereferenced volatile
pointer to the struct type. -/
def arrayBitsLine (pn rn addr : String) : String :=
  "#define " ++ pn ++ "_" ++ rn ++ "bits ((volatile " ++ pn ++ "_" ++ rn ++
  "bits_t *)" ++ addr ++ ")"

/-- Raw-access line in the scalar branch: a dereferenced volatile pointer
to the storage type. -/
def scalarRawLine (pn rn t addr : String) : String :=
  "#define " ++ pn ++ "_" ++ rn ++ " (*(volatile " ++ t ++ " *)" ++ addr ++ ")"

/-- Bitfield-view line in the scalar branch: a dereferenced volatile
pointer to the struct type. -/
def scalarBitsLine (pn rn addr : String) : String :=
  "#define " ++ pn ++ "_" ++ rn ++ "bits (*(volatile " ++ pn ++ "_" ++ rn ++
  "bits_t *)" ++ addr ++ ")"

/-- Full text block emitted by the array branch. -/
def arrayOutput (pn rn : String) (sz addr : Int) (es : List Entry) : List String :=
  [typedefOpenLine] ++
  (layoutMembers es sz).map (renderMemberArray (get_register_type sz)) ++
  [typedefCloseLine pn rn,
   arrayRawLine pn rn (get_register_type sz) (pyHex addr),
   arrayBitsLine pn rn (pyHex addr)]

/-- Full text block emitted by the scalar branch. -/
def scalarOutput (pn rn : String) (sz addr : Int) (es : List Entry) : List String :=
  [typedefOpenLine] ++
  (layoutMembers es sz).map (renderMemberScalar (get_register_type sz)) ++
  [typedefCloseLine pn rn,
   scalarRawLine pn rn (get_register_type sz) (pyHex addr),
   scalarBitsLine pn rn (pyHex addr)]

/-- Python `int(...)` as a fallible step: `ValueError` on failure. -/
def pyInt1 : Option Int → Except String Int
  | some v => .ok v
  | none => .error "ValueError"

/-- Reading `.text` of a possibly missing element: `AttributeError`. -/
def elemText : Option String → Except String String
  | some t => .ok t
  | none => .error "AttributeError"

/-- Bind for fallible steps, mirroring Python exception propagation. -/
def exBind : Except String α → (α → Except String β) → Except String β
  | .error e, _ => .error e
  | .ok v, f => f v

/-- The scalar branch's `size` parse: `int(text)` inside `try`, with
`int(text, 16)` in the `except ValueError` handler. -/
def scalarSizeParse (s : String) : Option Int :=
  match pyIntDec s with
  | some v => some v
  | none => pyIntBase16 s

/-- Source `extract_typedef`: dispatch on the `dim` element, parse the
numeric texts in source order, lay out the fields and render the typedef
plus the two access lines. -/
def extract_typedef (register : RegisterElem) (peripheral_name : String)
    (peripheral_base_address : String) : Except String (List String) :=
  match register.dim with
  | some dimText =>
    exBind (pyInt1 (pyIntDec dimText)) fun _dim =>
    exBind (elemText register.dimIncrement) fun incText =>
    exBind (pyInt1 (pyIntBase0 incText)) fun _dimIncrement =>
    exBind (elemText register.dimIndex) fun _dimIndex =>
    exBind (pyInt1 (pyIntDec register.size)) fun register_size =>
    exBind (pyInt1 (pyIntBase16 register.addressOffset)) fun register_address_offset =>
    exBind (pyInt1 (pyIntBase16 peripheral_base_address)) fun base =>
    exBind (fieldEntries register.fields) fun entries =>
    .ok (arrayOutput peripheral_name register.name register_size
          (base + register_address_offset) entries)
  | none =>
    exBind (pyInt1 (scalarSizeParse register.size)) fun register_size =>
    exBind (pyInt1 (pyIntBase16 peripheral_base_address)) fun base =>
    exBind (pyInt1 (pyIntBase16 register.addressOffset)) fun register_address_offset =>
    exBind (fieldEntries register.fields) fun entries =>
    .ok (scalarOutput peripheral_name register.name register_size
          (base + register_address_offset) entries)

/-- One peripheral's emitted register blocks, after the `derivedFrom`
resolution of `list_registers`: an empty attribute counts as absent
(Python truthiness), and an unresolved name leaves `None`, whose register
query raises `AttributeError`. -/
def emitPeripheral (doc : List PeripheralElem) (p : PeripheralElem) :
    Except String (List (Except String (List String))) :=
  match p.derivedFrom with
  | some df =>
    if df = "" then
      .ok (p.registers.map (fun r => extract_typedef r p.name p.baseAddress))
    else
      match doc.find? (fun q => q.name = df) with
      | none => .error "AttributeError"
      | some orig =>
        .ok (orig.registers.map (fun r => extract_typedef r p.name p.baseAddress))
  | none => .ok (p.registers.map (fun r => extract_typedef r p.name p.baseAddress))

/-- Keys of the field dict, in insertion order. -/
def keysOf (d : List Entry) : List String := d.map entryName

/-- First-match lookup in the field dict. -/
def dictGet : List Entry → String → Option (Int × Int)
  | [], _ => none
  | x :: rest, k => if x.1 = k then some x.2 else dictGet rest k

/-- Value carried by the last entry of a given name. -/
def lastEntryNamed : List Entry → String → Option (Int × Int)
  | [], _ => none
  | x :: rest, k =>
    match lastEntryNamed rest k with
    | some v => some v
    | none => if x.1 = k then some x.2 else none

/-- The last declared field of a given name. -/
def lastFieldNamed : List FieldElem → String → Option FieldElem
  | [], _ => none
  | f :: rest, n =>
    match lastFieldNamed rest n with
    | some g => some g
    | none => if f.name = n then some f else none

/-- Chained well-formedness of the sorted entries against a running
`last_end_bit`: each entry starts after it and is nonempty. -/
def chainOK : Int → List Entry → Prop
  | _, [] => True
  | lastEnd, x :: rest => lastEnd < startBit x ∧ startBit x ≤ endBit x ∧ chainOK (endBit x) rest

/-- Total bit width of a member sequence. -/
def widthSum (ms : List LayoutMember) : Int := (ms.map LayoutMember.width).sum

/-- How many members of the sequence, laid out consecutively from `start`,
cover the bit position `pos`. -/
def countCover : List LayoutMember → Int → Int → Nat
  | [], _, _ => 0
  | m :: rest, start, pos =>
    (if start ≤ pos ∧ pos < start + m.width then 1 else 0) +
      countCover rest (start + m.width) pos

/-- Contiguous coverage of the range from `next` up to `size` by the given
entries in order: each entry starts exactly at the next uncovered bit. -/
def coversFrom : Int → Int → List Entry → Prop
  | next, size, [] => next = size
  | next, size, x :: rest =>
    startBit x = next ∧ startBit x ≤ endBit x ∧ coversFrom (endBit x + 1) size rest

instance instDecidableCoversFrom :
    ∀ (next size : Int) (es : List Entry), Decidable (coversFrom next size es)
  | next, size, [] => inferInstanceAs (Decidable (next = size))
  | _next, size, x :: rest =>
    have _h := instDecidableCoversFrom (endBit x + 1) size rest
    inferInstanceAs (Decidable (_ ∧ _ ∧ _))

/-- Count of named members of a member sequence. -/
def namedCount (ms : List LayoutMember) : Nat :=
  (ms.filter LayoutMember.isNamedMember).length

/-- Concrete duplicate-name field list: F at bits 0 to 3, F again at bits
4 to 7, and G at bits 8 to 15. -/
def dupFieldsEx : List FieldElem :=
  [⟨"F", "0", "4"⟩, ⟨"F", "4", "4"⟩, ⟨"G", "8", "8"⟩]

/-- Parsed entries of `dupFieldsEx`. -/
def dupEntriesEx : List Entry := [("F", 0, 3), ("F", 4, 7), ("G", 8, 15)]

/-- Scalar register with overlapping fields A (bits 0 to 3) and B (bits 2
to 5) inside a declared size of 8. -/
def overlapReg : RegisterElem :=
  ⟨"R", none, none, none, "8", "0", [⟨"A", "0", "4"⟩, ⟨"B", "2", "4"⟩]⟩

/-- Concrete array register for the un-dereferenced access lines. -/
def regC3 : RegisterElem :=
  ⟨"CTRL", some "4", some "0x10", some "0-3", "16", "0x40", []⟩

/-- Concrete scalar register of size 16 at offset 0x10. -/
def scalarReg16 : RegisterElem := ⟨"R", none, none, none, "16", "0x10", []⟩

/-- Array register whose size text is the hexadecimal literal 0x20. -/
def hexSizeArrayReg : RegisterElem :=
  ⟨"R", some "2", some "0x4", some "0-1", "0x20", "0", []⟩

/-- Scalar register with the hexadecimal size text 0x20. -/
def hexSizeScalarReg : RegisterElem := ⟨"R", none, none, none, "0x20", "0", []⟩

/-- Array register: two elements, stride 4, indices 0-1. -/
def dimRegA : RegisterElem := ⟨"R", some "2", some "0x4", some "0-1", "8", "0", []⟩

/-- Array register: seven elements, stride 16, indices 0-6. -/
def dimRegB : RegisterElem := ⟨"R", some "7", some "0x10", some "0-6", "8", "0", []⟩

/-- Rendering shared between the two addressing modes, parametrised by
whether the register is an array. -/
def renderedWith (dimPresent : Bool) (pn rn : String) (sz addr : Int)
    (es : List Entry) : List String :=
  if dimPresent then arrayOutput pn rn sz addr es else scalarOutput pn rn sz addr es

/-- Register CR of the original peripheral. -/
def uartReg : RegisterElem := ⟨"CR", none, none, none, "8", "0", []⟩

/-- Original peripheral UART0 at base 0x1000. -/
def uart0P : PeripheralElem := ⟨"UART0", "0x1000", none, [uartReg]⟩

/-- Derived peripheral UART1 at base 0x2000, derived from UART0. -/
def uart1P : PeripheralElem := ⟨"UART1", "0x2000", some "UART0", []⟩

/-- Document holding the original and the derived peripheral. -/
def docEx : List PeripheralElem := [uart0P, uart1P]

theorem mem_dictInsert {x : Entry} :
    ∀ {d : List Entry} {k : String} {v : Int × Int},
      x ∈ dictInsert d k v → x ∈ d ∨ x = (k, v) := by
  intro d
  induction d with
  | nil =>
    intro k v h
    simp [dictInsert] at h
    exact Or.inr h
  | cons y rest ih =>
    obtain ⟨k1, v1⟩ := y
    intro k v h
    simp only [dictInsert] at h
    by_cases hk : k1 = k
    · rw [if_pos hk] at h
      rcases List.mem_cons.1 h with h1 | h1
      · exact Or.inr h1
      · exact Or.inl (List.mem_cons_of_mem _ h1)
    · rw [if_neg hk] at h
      rcases List.mem_cons.1 h with h1 | h1
      · exact Or.inl (h1 ▸ List.mem_cons_self _ _)
      · rcases ih h1 with h2 | h2
        · exact Or.inl (List.mem_cons_of_mem _ h2)
        · exact Or.inr h2

theorem dictInsert_of_not_mem :
    ∀ {d : List Entry} {k : String} {v : Int × Int},
      k ∉ keysOf d → dictInsert d k v = d ++ [(k, v)] := by
  intro d
  induction d with
  | nil => intro k v _; rfl
  | cons y rest ih =>
    obtain ⟨k1, v1⟩ := y
    intro k v h
    simp only [keysOf, entryName, List.map_cons, List.mem_cons] at h
    push_neg at h
    simp only [dictInsert]
    rw [if_neg (fun hh => h.1 hh.symm), ih (by simpa [keysOf, entryName] using h.2)]
    simp

theorem keysOf_dictInsert_of_mem :
    ∀ {d : List Entry} {k : String} {v : Int × Int},
      k ∈ keysOf d → keysOf (dictInsert d k v) = keysOf d := by
  intro d
  induction d with
  | nil => intro k v h; simp [keysOf] at h
  | cons y rest ih =>
    obtain ⟨k1, v1⟩ := y
    intro k v h
    simp only [dictInsert]
    by_cases hk : k1 = k
    · rw [if_pos hk]
      simp [keysOf, entryName, hk]
    · rw [if_neg hk]
      simp only [keysOf, entryName, List.map_cons] at h ⊢
      rcases List.mem_cons.1 h with h1 | h1
      · exact absurd h1.symm hk
      · have h2 := ih (k := k) (v := v) (show k ∈ keysOf rest by simpa [keysOf, entryName] using h1)
        simp only [keysOf, entryName] at h2
        rw [h2]

theorem nodup_keysOf_dictInsert {d : List Entry} {k : String} {v : Int × Int}
    (h : (keysOf d).Nodup) : (keysOf (dictInsert d k v)).Nodup := by
  by_cases hk : k ∈ keysOf d
  · rw [keysOf_dictInsert_of_mem hk]; exact h
  · rw [dictInsert_of_not_mem hk]
    have hkeys : keysOf (d ++ [(k, v)]) = keysOf d ++ [k] := by
      simp [keysOf, entryName]
    rw [hkeys, List.nodup_append]
    refine ⟨h, List.nodup_singleton _, ?_⟩
    intro a ha hb
    simp only [List.mem_singleton] at hb
    exact hk (hb ▸ ha)

theorem mem_dictFold {x : Entry} :
    ∀ {es d : List Entry}, x ∈ dictFold d es → x ∈ d ∨ x ∈ es := by
  intro es
  induction es with
  | nil => intro d h; exact Or.inl h
  | cons y rest ih =>
    intro d h
    rcases ih h with h1 | h1
    · rcases mem_dictInsert h1 with h2 | h2
      · exact Or.inl h2
      · exact Or.inr (h2 ▸ List.mem_cons_self _ _)
    · exact Or.inr (List.mem_cons_of_mem _ h1)

theorem nodup_keysOf_dictFold :
    ∀ {es d : List Entry}, (keysOf d).Nodup → (keysOf (dictFold d es)).Nodup := by
  intro es
  induction es with
  | nil => intro d h; exact h
  | cons y rest ih => intro d h; exact ih (nodup_keysOf_dictInsert h)

theorem dictFold_append_of_nodup :
    ∀ {es d : List Entry}, (∀ e ∈ es, entryName e ∉ keysOf d) →
      (es.map entryName).Nodup → dictFold d es = d ++ es := by
  intro es
  induction es with
  | nil => intro d _ _; simp [dictFold]
  | cons y rest ih =>
    intro d hfresh hnd
    simp only [List.map_cons, List.nodup_cons] at hnd
    have hy : y.1 ∉ keysOf d := hfresh y (List.mem_cons_self _ _)
    show dictFold (dictInsert d y.1 y.2) rest = d ++ y :: rest
    rw [dictInsert_of_not_mem hy]
    have hfresh2 : ∀ e ∈ rest, entryName e ∉ keysOf (d ++ [(y.1, y.2)]) := by
      intro e he
      have h1 : entryName e ∉ keysOf d := hfresh e (List.mem_cons_of_mem _ he)
      have h2 : entryName e ≠ y.1 := by
        intro hc
        apply hnd.1
        have hm := List.mem_map_of_mem entryName he
        show entryName y ∈ List.map entryName rest
        have h3 : entryName y = entryName e := hc.symm
        rw [h3]
        exact hm
      simp only [keysOf, List.map_append, List.map_cons, List.map_nil, List.mem_append,
        List.mem_singleton]
      push_neg
      refine ⟨by simpa [keysOf] using h1, ?_⟩
      simpa [entryName] using h2
    rw [ih hfresh2 hnd.2]
    simp

theorem length_dictInsert_of_mem {d : List Entry} {k : String} {v : Int × Int}
    (h : k ∈ keysOf d) : (dictInsert d k v).length = d.length := by
  have h1 := keysOf_dictInsert_of_mem (v := v) h
  have h2 : (keysOf (dictInsert d k v)).length = (keysOf d).length := by rw [h1]
  simpa [keysOf] using h2

theorem length_dictInsert_le {d : List Entry} {k : String} {v : Int × Int} :
    (dictInsert d k v).length ≤ d.length + 1 := by
  by_cases h : k ∈ keysOf d
  · rw [length_dictInsert_of_mem h]; omega
  · rw [dictInsert_of_not_mem h]; simp

theorem length_dictFold_le :
    ∀ {es d : List Entry}, (dictFold d es).length ≤ d.length + es.length := by
  intro es
  induction es with
  | nil => intro d; simp [dictFold]
  | cons y rest ih =>
    intro d
    calc (dictFold (dictInsert d y.1 y.2) rest).length
        ≤ (dictInsert d y.1 y.2).length + rest.length := ih
      _ ≤ (d.length + 1) + rest.length := by
          have := length_dictInsert_le (d := d) (k := y.1) (v := y.2); omega
      _ = d.length + (y :: rest).length := by simp; omega

theorem length_dictFold_lt :
    ∀ {es d : List Entry}, (keysOf d).Nodup →
      ¬ (keysOf d ++ es.map entryName).Nodup →
      (dictFold d es).length < d.length + es.length := by
  intro es
  induction es with
  | nil =>
    intro d hd hnot
    exact absurd (by simpa using hd) hnot
  | cons y rest ih =>
    intro d hd hnot
    by_cases hk : y.1 ∈ keysOf d
    · have h1 : (dictFold (dictInsert d y.1 y.2) rest).length ≤
          (dictInsert d y.1 y.2).length + rest.length := length_dictFold_le
      rw [length_dictInsert_of_mem hk] at h1
      show (dictFold (dictInsert d y.1 y.2) rest).length < d.length + (y :: rest).length
      simp only [List.length_cons]
      omega
    · have hins : dictInsert d y.1 y.2 = d ++ [(y.1, y.2)] := dictInsert_of_not_mem hk
      have hnd2 : (keysOf (dictInsert d y.1 y.2)).Nodup := nodup_keysOf_dictInsert hd
      have hkeys : keysOf (dictInsert d y.1 y.2) = keysOf d ++ [y.1] := by
        rw [hins]; simp [keysOf, entryName]
      have hnot2 : ¬ (keysOf (dictInsert d y.1 y.2) ++ rest.map entryName).Nodup := by
        rw [hkeys]
        intro hc
        apply hnot
        simpa [entryName] using hc
      have hlt := ih hnd2 hnot2
      have hlen : (dictInsert d y.1 y.2).length = d.length + 1 := by
        rw [hins]; simp
      show (dictFold (dictInsert d y.1 y.2) rest).length < d.length + (y :: rest).length
      simp only [List.length_cons]
      omega

theorem dictGet_dictInsert :
    ∀ {d : List Entry} {k k' : String} {v : Int × Int},
      dictGet (dictInsert d k v) k' = if k' = k then some v else dictGet d k' := by
  intro d
  induction d with
  | nil =>
    intro k k' v
    simp only [dictInsert, dictGet]
    by_cases h : k' = k
    · subst h; simp
    · rw [if_neg (show ¬ k = k' from fun hc => h hc.symm), if_neg h]
  | cons y rest ih =>
    obtain ⟨k1, v1⟩ := y
    intro k k' v
    simp only [dictInsert]
    by_cases h1 : k1 = k
    · rw [if_pos h1]
      by_cases h2 : k' = k
      · simp [dictGet, h2, eq_comm]
      · simp only [dictGet, if_neg h2]
        rw [if_neg (fun hc : k = k' => h2 hc.symm)]
        rw [if_neg (fun hc : k1 = k' => h2 (h1 ▸ hc).symm)]
    · rw [if_neg h1]
      by_cases h2 : k1 = k'
      · have hk : k' ≠ k := fun hc => h1 (h2.trans hc)
        simp [dictGet, h2, hk]
      · simp [dictGet, h2, ih]

theorem dictGet_dictFold :
    ∀ {es d : List Entry} {k : String},
      dictGet (dictFold d es) k =
        match lastEntryNamed es k with
        | some v => some v
        | none => dictGet d k := by
  intro es
  induction es with
  | nil => intro d k; rfl
  | cons y rest ih =>
    intro d k
    show dictGet (dictFold (dictInsert d y.1 y.2) rest) k = _
    rw [ih]
    simp only [lastEntryNamed]
    cases hlast : lastEntryNamed rest k with
    | some v => rfl
    | none =>
      rw [dictGet_dictInsert]
      by_cases h : y.1 = k
      · simp [h]
      · rw [if_neg (fun hc : k = y.1 => h hc.symm), if_neg h]

theorem mem_dictGet :
    ∀ {d : List Entry} {x : Entry}, (keysOf d).Nodup → x ∈ d →
      dictGet d x.1 = some x.2 := by
  intro d
  induction d with
  | nil => intro x _ h; simp at h
  | cons y rest ih =>
    intro x hnd hx
    simp only [keysOf, List.map_cons, List.nodup_cons] at hnd
    rcases List.mem_cons.1 hx with h1 | h1
    · subst h1
      simp [dictGet]
    · have hne : y.1 ≠ x.1 := by
        intro hc
        apply hnd.1
        have hm := List.mem_map_of_mem entryName h1
        show entryName y ∈ List.map entryName rest
        have h3 : entryName y = entryName x := hc
        rw [h3]
        exact hm
      simp only [dictGet, if_neg hne]
      exact ih (by simpa [keysOf] using hnd.2) h1

theorem parseFields_names :
    ∀ {fields : List FieldElem} {es : List Entry}, parseFields fields = .ok es →
      es.map entryName = fields.map FieldElem.name ∧ es.length = fields.length := by
  intro fields
  induction fields with
  | nil =>
    intro es h
    simp only [parseFields] at h
    cases h
    simp
  | cons f rest ih =>
    intro es h
    simp only [parseFields] at h
    cases hso : pyIntDec f.bitOffset with
    | none => rw [hso] at h; cases h
    | some s =>
      rw [hso] at h
      cases hsw : pyIntDec f.bitWidth with
      | none => rw [hsw] at h; cases h
      | some w =>
        rw [hsw] at h
        cases hrest : parseFields rest with
        | error e => rw [hrest] at h; cases h
        | ok es' =>
          rw [hrest] at h
          cases h
          have := ih hrest
          simp [entryName, this.1, this.2]

theorem parseFields_lastNamed :
    ∀ {fields : List FieldElem} {es : List Entry}, parseFields fields = .ok es →
      ∀ n : String,
        (match lastFieldNamed fields n with
         | none => lastEntryNamed es n = none
         | some f => ∃ s w, pyIntDec f.bitOffset = some s ∧ pyIntDec f.bitWidth = some w ∧
             lastEntryNamed es n = some (s, s + w - 1)) := by
  intro fields
  induction fields with
  | nil =>
    intro es h n
    simp only [parseFields] at h
    cases h
    simp [lastFieldNamed, lastEntryNamed]
  | cons f rest ih =>
    intro es h n
    simp only [parseFields] at h
    cases hso : pyIntDec f.bitOffset with
    | none => rw [hso] at h; cases h
    | some s =>
      rw [hso] at h
      cases hsw : pyIntDec f.bitWidth with
      | none => rw [hsw] at h; cases h
      | some w =>
        rw [hsw] at h
        cases hrest : parseFields rest with
        | error e => rw [hrest] at h; cases h
        | ok es' =>
          rw [hrest] at h
          cases h
          have hih := ih hrest n
          simp only [lastFieldNamed, lastEntryNamed]
          cases hlf : lastFieldNamed rest n with
          | some g =>
            rw [hlf] at hih
            obtain ⟨s1, w1, hg1, hg2, hg3⟩ := hih
            rw [hg3]
            exact ⟨s1, w1, hg1, hg2, rfl⟩
          | none =>
            rw [hlf] at hih
            rw [hih]
            by_cases hn : f.name = n
            · rw [if_pos hn, if_pos hn]
              exact ⟨s, w, hso, hsw, rfl⟩
            · rw [if_neg hn, if_neg hn]

theorem pySortEntries_perm (es : List Entry) : List.Perm (pySortEntries es) es :=
  List.perm_insertionSort entryLE es

theorem pySortEntries_sorted (es : List Entry) : List.Sorted entryLE (pySortEntries es) :=
  List.sorted_insertionSort entryLE es

theorem widthSum_append (a b : List LayoutMember) :
    widthSum (a ++ b) = widthSum a + widthSum b := by
  simp [widthSum]

theorem layoutLoop_widthSum :
    ∀ {es : List Entry} {L : Int}, chainOK L es →
      widthSum (layoutLoop es L) = lastEndOf es L - L := by
  intro es
  induction es with
  | nil => intro L _; simp [layoutLoop, lastEndOf, widthSum]
  | cons x rest ih =>
    intro L h
    obtain ⟨h1, h2, h3⟩ := h
    show widthSum ((if L + 1 = startBit x then ([] : List LayoutMember)
        else [.Reserved (startBit x - L - 1)]) ++
        (.Named (entryName x) (endBit x - startBit x + 1) :: layoutLoop rest (endBit x))) =
      lastEndOf rest (endBit x) - L
    rw [widthSum_append]
    have hr := ih h3
    by_cases hgap : L + 1 = startBit x
    · rw [if_pos hgap]
      simp only [widthSum, List.map_nil, List.sum_nil, List.map_cons, List.sum_cons,
        LayoutMember.width] at hr ⊢
      omega
    · rw [if_neg hgap]
      simp only [widthSum, List.map_nil, List.sum_nil, List.map_cons, List.sum_cons,
        LayoutMember.width] at hr ⊢
      omega

theorem layoutLoop_width_pos :
    ∀ {es : List Entry} {L : Int}, chainOK L es →
      ∀ m ∈ layoutLoop es L, 0 < m.width := by
  intro es
  induction es with
  | nil => intro L _ m hm; simp [layoutLoop] at hm
  | cons x rest ih =>
    intro L h m hm
    obtain ⟨h1, h2, h3⟩ := h
    have hm2 : m ∈ (if L + 1 = startBit x then ([] : List LayoutMember)
        else [.Reserved (startBit x - L - 1)]) ++
        (.Named (entryName x) (endBit x - startBit x + 1) :: layoutLoop rest (endBit x)) := hm
    rcases List.mem_append.1 hm2 with hmm | hmm
    · by_cases hgap : L + 1 = startBit x
      · rw [if_pos hgap] at hmm; simp at hmm
      · rw [if_neg hgap] at hmm
        simp only [List.mem_singleton] at hmm
        subst hmm
        simp only [LayoutMember.width]
        omega
    · rcases List.mem_cons.1 hmm with hmm2 | hmm2
      · subst hmm2
        simp only [LayoutMember.width]
        omega
      · exact ih h3 m hmm2

theorem lastEndOf_le_of :
    ∀ {es : List Entry} {L B : Int}, (∀ x ∈ es, endBit x ≤ B) → L ≤ B →
      lastEndOf es L ≤ B := by
  intro es
  induction es with
  | nil => intro L B _ h; exact h
  | cons x rest ih =>
    intro L B hall hL
    exact ih (fun y hy => hall y (List.mem_cons_of_mem _ hy))
      (hall x (List.mem_cons_self _ _))

theorem chainOK_le_lastEndOf :
    ∀ {es : List Entry} {L : Int}, chainOK L es → L ≤ lastEndOf es L := by
  intro es
  induction es with
  | nil => intro L _; simp [lastEndOf]
  | cons x rest ih =>
    intro L h
    obtain ⟨h1, h2, h3⟩ := h
    have := ih h3
    show L ≤ lastEndOf rest (endBit x)
    omega

theorem chainOK_of_sorted :
    ∀ {es : List Entry} {L : Int}, List.Sorted entryLE es → es.Nodup →
      (∀ x ∈ es, ∀ y ∈ es, x ≠ y → endBit x < startBit y ∨ endBit y < startBit x) →
      (∀ x ∈ es, startBit x ≤ endBit x) →
      (∀ x ∈ es, L < startBit x) → chainOK L es := by
  intro es
  induction es with
  | nil => intro L _ _ _ _ _; trivial
  | cons x rest ih =>
    intro L hsorted hnd hdisj hwd hlo
    have hs := List.sorted_cons.1 hsorted
    have hn := List.nodup_cons.1 hnd
    refine ⟨hlo x (List.mem_cons_self _ _), hwd x (List.mem_cons_self _ _), ?_⟩
    apply ih hs.2 hn.2
    · intro a ha b hb hab
      exact hdisj a (List.mem_cons_of_mem _ ha) b (List.mem_cons_of_mem _ hb) hab
    · intro a ha
      exact hwd a (List.mem_cons_of_mem _ ha)
    · intro a ha
      have hne : x ≠ a := fun hc => hn.1 (hc ▸ ha)
      rcases hdisj x (List.mem_cons_self _ _) a (List.mem_cons_of_mem _ ha) hne with hd | hd
      · exact hd
      · have hle : entryLE x a := hs.1 a ha
        have hwa : startBit a ≤ endBit a := hwd a (List.mem_cons_of_mem _ ha)
        unfold entryLE at hle
        omega

theorem countCover_eq_zero :
    ∀ {ms : List LayoutMember} {start pos : Int},
      (∀ m ∈ ms, 0 ≤ m.width) → pos < start → countCover ms start pos = 0 := by
  intro ms
  induction ms with
  | nil => intro start pos _ _; rfl
  | cons m rest ih =>
    intro start pos hw hp
    show (if start ≤ pos ∧ pos < start + m.width then 1 else 0) +
      countCover rest (start + m.width) pos = 0
    rw [if_neg (by omega)]
    have h1 : (0 : Int) ≤ m.width := hw m (List.mem_cons_self _ _)
    rw [ih (fun a ha => hw a (List.mem_cons_of_mem _ ha)) (by omega)]

theorem countCover_eq_one :
    ∀ {ms : List LayoutMember} {start pos : Int},
      (∀ m ∈ ms, 0 ≤ m.width) → start ≤ pos → pos < start + widthSum ms →
      countCover ms start pos = 1 := by
  intro ms
  induction ms with
  | nil =>
    intro start pos _ h1 h2
    simp only [widthSum, List.map_nil, List.sum_nil] at h2
    omega
  | cons m rest ih =>
    intro start pos hw h1 h2
    have hwm : (0 : Int) ≤ m.width := hw m (List.mem_cons_self _ _)
    have hwr : ∀ a ∈ rest, (0 : Int) ≤ a.width := fun a ha => hw a (List.mem_cons_of_mem _ ha)
    simp only [widthSum, List.map_cons, List.sum_cons] at h2
    show (if start ≤ pos ∧ pos < start + m.width then 1 else 0) +
      countCover rest (start + m.width) pos = 1
    by_cases hhead : pos < start + m.width
    · rw [if_pos ⟨h1, hhead⟩, countCover_eq_zero hwr hhead]
    · rw [if_neg (by omega)]
      rw [ih hwr (by omega) (by rw [widthSum]; omega)]

/-- Claim C1: for every register whose fields are pairwise disjoint, have
positive widths (so sorting by ascending bit offset resolves them), and
are contained within the declared range, the Field Layout Engine produces
a member sequence whose widths are positive and sum exactly to the size,
and every bit position in the range is covered by exactly one member of
the consecutively laid out sequence. -/
theorem fieldLayout_exact_cover (size : Int) (fields : List FieldElem) (es : List Entry)
    (hparse : parseFields fields = .ok es)
    (hsize : 0 ≤ size)
    (hlo : ∀ x ∈ es, 0 ≤ startBit x)
    (hwd : ∀ x ∈ es, startBit x ≤ endBit x)
    (hhi : ∀ x ∈ es, endBit x < size)
    (hdisj : ∀ x ∈ es, ∀ y ∈ es, x ≠ y → endBit x < startBit y ∨ endBit y < startBit x) :
    ∃ ms, fieldLayout size fields = .ok ms ∧ widthSum ms = size ∧
      (∀ m ∈ ms, 0 < m.width) ∧
      (∀ pos : Int, 0 ≤ pos → pos < size → countCover ms 0 pos = 1) := by
  have hfe : fieldEntries fields = .ok (pySortEntries (dictFold [] es)) := by
    simp only [fieldEntries, hparse]
  set ss := pySortEntries (dictFold [] es)
  have hmem : ∀ x ∈ ss, x ∈ es := by
    intro x hx
    have hx2 : x ∈ dictFold [] es := (pySortEntries_perm (dictFold [] es)).mem_iff.1 hx
    rcases mem_dictFold hx2 with h | h
    · simp at h
    · exact h
  have hknd : (keysOf (dictFold [] es)).Nodup := nodup_keysOf_dictFold (by simp [keysOf])
  have hnd : ss.Nodup := by
    have hdn : (dictFold [] es).Nodup := List.Nodup.of_map entryName hknd
    exact ((pySortEntries_perm (dictFold [] es)).nodup_iff).2 hdn
  have hsorted := pySortEntries_sorted (dictFold [] es)
  have hchain : chainOK (-1) ss := by
    apply chainOK_of_sorted hsorted hnd
    · intro x hx y hy hxy
      exact hdisj x (hmem x hx) y (hmem y hy) hxy
    · intro x hx
      exact hwd x (hmem x hx)
    · intro x hx
      have := hlo x (hmem x hx)
      omega
  have hlast : lastEndOf ss (-1) ≤ size - 1 := by
    apply lastEndOf_le_of
    · intro x hx
      have := hhi x (hmem x hx)
      omega
    · omega
  have hLge : (-1 : Int) ≤ lastEndOf ss (-1) := chainOK_le_lastEndOf hchain
  have hsum := layoutLoop_widthSum hchain
  have hpos := layoutLoop_width_pos hchain
  have hallpos : ∀ m ∈ layoutMembers ss size, 0 < m.width := by
    intro m hm
    unfold layoutMembers at hm
    rcases List.mem_append.1 hm with h | h
    · exact hpos m h
    · by_cases ht : lastEndOf ss (-1) < size - 1
      · rw [if_pos ht] at h
        simp only [List.mem_singleton] at h
        subst h
        simp only [LayoutMember.width]
        omega
      · rw [if_neg ht] at h
        simp at h
  have hsumall : widthSum (layoutMembers ss size) = size := by
    unfold layoutMembers
    rw [widthSum_append, hsum]
    by_cases ht : lastEndOf ss (-1) < size - 1
    · rw [if_pos ht]
      simp only [widthSum, List.map_cons, List.map_nil, List.sum_cons, List.sum_nil,
        LayoutMember.width]
      omega
    · rw [if_neg ht]
      simp only [widthSum, List.map_nil, List.sum_nil]
      omega
  refine ⟨layoutMembers ss size, ?_, hsumall, hallpos, ?_⟩
  · simp only [fieldLayout, hfe]
  · intro pos h0 hs2
    apply countCover_eq_one (fun m hm => le_of_lt (hallpos m hm)) h0
    rw [hsumall]
    omega

/-- Concrete register discharging the exact-cover hypotheses: size 32 with
a field EN at bit 0 and a field MODE at bits 4 to 5. -/
theorem fieldLayout_exact_cover_instance :
    parseFields [⟨"EN", "0", "1"⟩, ⟨"MODE", "4", "2"⟩] =
      .ok [("EN", 0, 0), ("MODE", 4, 5)] ∧
    ∃ ms, fieldLayout 32 [⟨"EN", "0", "1"⟩, ⟨"MODE", "4", "2"⟩] = .ok ms ∧
      widthSum ms = 32 ∧ (∀ m ∈ ms, 0 < m.width) ∧
      (∀ pos : Int, 0 ≤ pos → pos < 32 → countCover ms 0 pos = 1) :=
  ⟨rfl, fieldLayout_exact_cover 32 _ [("EN", 0, 0), ("MODE", 4, 5)] rfl (by decide)
    (by decide) (by decide) (by decide) (by decide)⟩

/-- Claim C8: a register declaring no fields lays out as exactly one
reserved member whose width is the full declared size. -/
theorem fieldLayout_no_fields (size : Int) (h : 0 < size) :
    fieldLayout size [] = .ok [.Reserved size] := by
  have h1 : fieldLayout size [] = .ok (layoutMembers [] size) := rfl
  rw [h1]
  unfold layoutMembers
  simp only [layoutLoop, lastEndOf, List.nil_append]
  rw [if_pos (by omega : (-1 : Int) < size - 1)]
  have h2 : size - (-1) - 1 = size := by omega
  rw [h2]

/-- Concrete instance of the no-fields layout at the declared size 32. -/
theorem fieldLayout_no_fields_instance :
    (0 : Int) < 32 ∧ fieldLayout 32 [] = .ok [.Reserved 32] :=
  ⟨by norm_num, fieldLayout_no_fields 32 (by norm_num)⟩

theorem layoutLoop_coversFrom :
    ∀ {es : List Entry} {next size : Int}, coversFrom next size es →
      layoutLoop es (next - 1) =
        es.map (fun x => .Named (entryName x) (endBit x - startBit x + 1)) ∧
      lastEndOf es (next - 1) = size - 1 := by
  intro es
  induction es with
  | nil =>
    intro next size h
    unfold coversFrom at h
    subst h
    exact ⟨rfl, rfl⟩
  | cons x rest ih =>
    intro next size h
    obtain ⟨h1, h2, h3⟩ := h
    have hih := ih h3
    constructor
    · show (if (next - 1) + 1 = startBit x then ([] : List LayoutMember)
          else [.Reserved (startBit x - (next - 1) - 1)]) ++
          (.Named (entryName x) (endBit x - startBit x + 1) :: layoutLoop rest (endBit x)) = _
      rw [if_pos (by omega)]
      have hloop : layoutLoop rest (endBit x) = layoutLoop rest ((endBit x + 1) - 1) := by
        norm_num
      rw [hloop, hih.1]
      simp
    · show lastEndOf rest (endBit x) = size - 1
      have hl : lastEndOf rest ((endBit x + 1) - 1) = size - 1 := hih.2
      simpa using hl

/-- Claim C7 as stated is refuted: both fields are named A and cover bits
0 to 7 of the 8-bit register contiguously, yet the engine emits a reserved
member of width 4, because the dict build keeps only the last field of a
given name. -/
theorem fieldLayout_gapfree_counterexample :
    parseFields [⟨"A", "0", "4"⟩, ⟨"A", "4", "4"⟩] = .ok [("A", 0, 3), ("A", 4, 7)] ∧
    coversFrom 0 8 (pySortEntries [("A", 0, 3), ("A", 4, 7)]) ∧
    fieldLayout 8 [⟨"A", "0", "4"⟩, ⟨"A", "4", "4"⟩] =
      .ok [.Reserved 4, .Named "A" 4] :=
  ⟨rfl, by decide, rfl⟩

/-- Claim C7 amended: when the declared fields additionally have pairwise
distinct names and, sorted by start bit, cover the declared range
contiguously, the engine emits exactly the named members, in sorted order,
and no reserved member. -/
theorem fieldLayout_gapfree (size : Int) (fields : List FieldElem) (es : List Entry)
    (hparse : parseFields fields = .ok es)
    (hnames : (fields.map FieldElem.name).Nodup)
    (hcover : coversFrom 0 size (pySortEntries es)) :
    fieldLayout size fields =
      .ok ((pySortEntries es).map
        (fun x => .Named (entryName x) (endBit x - startBit x + 1))) ∧
    ∀ m ∈ (pySortEntries es).map
        (fun x => LayoutMember.Named (entryName x) (endBit x - startBit x + 1)),
      m.isNamedMember = true := by
  have hnames2 : (es.map entryName).Nodup := by
    have hp := (parseFields_names hparse).1
    rw [hp]
    exact hnames
  have hdd : dictFold [] es = es := by
    have hda := @dictFold_append_of_nodup es []
      (by intro e _; simp [keysOf]) hnames2
    simpa using hda
  have hfe : fieldEntries fields = .ok (pySortEntries es) := by
    simp only [fieldEntries, hparse, hdd]
  have hcov := @layoutLoop_coversFrom (pySortEntries es) 0 size hcover
  have hc1 := hcov.1
  have hc2 := hcov.2
  rw [(by norm_num : (0 : Int) - 1 = -1)] at hc1 hc2
  constructor
  · simp only [fieldLayout, hfe]
    congr 1
    unfold layoutMembers
    rw [hc1, hc2]
    rw [if_neg (by omega)]
    simp
  · intro m hm
    simp only [List.mem_map] at hm
    obtain ⟨x, _, hx⟩ := hm
    subst hx
    rfl

/-- Concrete instance of the gap-free layout: the source's scenario with
size 8 and the fields RESERVED at bits 0 to 5 and PRI at bits 6 to 7. -/
theorem fieldLayout_gapfree_instance :
    parseFields [⟨"RESERVED", "0", "6"⟩, ⟨"PRI", "6", "2"⟩] =
      .ok [("RESERVED", 0, 5), ("PRI", 6, 7)] ∧
    coversFrom 0 8 (pySortEntries [("RESERVED", 0, 5), ("PRI", 6, 7)]) ∧
    fieldLayout 8 [⟨"RESERVED", "0", "6"⟩, ⟨"PRI", "6", "2"⟩] =
      .ok [.Named "RESERVED" 6, .Named "PRI" 2] := by
  refine ⟨rfl, by decide, ?_⟩
  have h := (fieldLayout_gapfree 8 [⟨"RESERVED", "0", "6"⟩, ⟨"PRI", "6", "2"⟩]
    [("RESERVED", 0, 5), ("PRI", 6, 7)] rfl (by decide) (by decide)).1
  exact h

theorem namedCount_layoutLoop :
    ∀ (es : List Entry) (L : Int), namedCount (layoutLoop es L) = es.length := by
  intro es
  induction es with
  | nil => intro L; rfl
  | cons x rest ih =>
    intro L
    have ih2 : ∀ M : Int,
        ((layoutLoop rest M).filter LayoutMember.isNamedMember).length = rest.length :=
      fun M => ih M
    show namedCount ((if L + 1 = startBit x then ([] : List LayoutMember)
        else [.Reserved (startBit x - L - 1)]) ++
        (.Named (entryName x) (endBit x - startBit x + 1) :: layoutLoop rest (endBit x))) = _
    unfold namedCount
    rw [List.filter_append]
    by_cases h : L + 1 = startBit x
    · rw [if_pos h]
      simp [List.filter_cons, LayoutMember.isNamedMember, ih2]
    · rw [if_neg h]
      simp [List.filter_cons, LayoutMember.isNamedMember, ih2]

theorem namedCount_layoutMembers (es : List Entry) (size : Int) :
    namedCount (layoutMembers es size) = es.length := by
  unfold layoutMembers
  have h1 := namedCount_layoutLoop es (-1)
  unfold namedCount at h1 ⊢
  rw [List.filter_append]
  by_cases h : lastEndOf es (-1) < size - 1
  · rw [if_pos h]
    simp [List.filter_cons, LayoutMember.isNamedMember, h1]
  · rw [if_neg h]
    simp [h1]

/-- Claim C9: when declared fields share a name, only the last field of
each name reaches the dict (with its parsed offset and width), the named
members of any produced layout are in bijection with the dict, and the
dict is strictly smaller than the declared field list. -/
theorem duplicate_fields_last_wins (fields : List FieldElem) (es : List Entry)
    (hparse : parseFields fields = .ok es)
    (hdup : ¬ (fields.map FieldElem.name).Nodup) :
    (∀ x ∈ dictFold [] es, ∃ f, lastFieldNamed fields (entryName x) = some f ∧
      pyIntDec f.bitOffset = some (startBit x) ∧
      pyIntDec f.bitWidth = some (endBit x - startBit x + 1)) ∧
    (∀ sz ms, fieldLayout sz fields = .ok ms →
      namedCount ms = (dictFold [] es).length) ∧
    (dictFold [] es).length < fields.length := by
  have hknd : (keysOf (dictFold [] es)).Nodup := nodup_keysOf_dictFold (by simp [keysOf])
  refine ⟨?_, ?_, ?_⟩
  · intro x hx
    have hget : dictGet (dictFold [] es) x.1 = some x.2 := mem_dictGet hknd hx
    have hchar := @dictGet_dictFold es [] x.1
    rw [hget] at hchar
    cases hlast : lastEntryNamed es x.1 with
    | none =>
      rw [hlast] at hchar
      exact absurd hchar.symm (by simp [dictGet])
    | some v =>
      rw [hlast] at hchar
      have hv : v = x.2 := by
        have := hchar
        simp at this
        exact this.symm
      subst hv
      have hln := parseFields_lastNamed hparse x.1
      cases hlf : lastFieldNamed fields x.1 with
      | none =>
        rw [hlf] at hln
        rw [hln] at hlast
        cases hlast
      | some f =>
        rw [hlf] at hln
        obtain ⟨s, w, hf1, hf2, hf3⟩ := hln
        rw [hf3] at hlast
        have hpair : (s, s + w - 1) = x.2 := by
          have := hlast
          simpa using this
        refine ⟨f, hlf, ?_, ?_⟩
        · have hs : s = startBit x := by
            have h1 : (s, s + w - 1).1 = x.2.1 := by rw [hpair]
            simpa [startBit] using h1
          rw [← hs]
          exact hf1
        · have he : s + w - 1 = endBit x := by
            have h2 : (s, s + w - 1).2 = x.2.2 := by rw [hpair]
            simpa [endBit] using h2
          have hs : s = startBit x := by
            have h1 : (s, s + w - 1).1 = x.2.1 := by rw [hpair]
            simpa [startBit] using h1
          have hw : w = endBit x - startBit x + 1 := by omega
          rw [← hw]
          exact hf2
  · intro sz ms hok
    have hms : ms = layoutMembers (pySortEntries (dictFold [] es)) sz := by
      simp only [fieldLayout, fieldEntries, hparse] at hok
      have := hok
      simp at this
      exact this.symm
    rw [hms, namedCount_layoutMembers]
    exact (pySortEntries_perm (dictFold [] es)).length_eq
  · have hlt := @length_dictFold_lt es [] (by simp [keysOf])
      (by
        simp only [keysOf, List.map_nil, List.nil_append]
        rw [(parseFields_names hparse).1]
        exact hdup)
    have hlen := (parseFields_names hparse).2
    simpa [hlen] using hlt

/-- Concrete instance of the last-wins behaviour on `dupFieldsEx`. -/
theorem duplicate_fields_last_wins_instance :
    parseFields dupFieldsEx = .ok dupEntriesEx ∧
    ¬ (dupFieldsEx.map FieldElem.name).Nodup ∧
    ((∀ x ∈ dictFold [] dupEntriesEx, ∃ f,
        lastFieldNamed dupFieldsEx (entryName x) = some f ∧
        pyIntDec f.bitOffset = some (startBit x) ∧
        pyIntDec f.bitWidth = some (endBit x - startBit x + 1)) ∧
      (∀ sz ms, fieldLayout sz dupFieldsEx = .ok ms →
        namedCount ms = (dictFold [] dupEntriesEx).length) ∧
      (dictFold [] dupEntriesEx).length < dupFieldsEx.length) :=
  ⟨rfl, by decide, duplicate_fields_last_wins dupFieldsEx dupEntriesEx rfl (by decide)⟩

theorem extract_typedef_array_ok {r : RegisterElem} {pn pb dt : String}
    {out : List String} (hdim : r.dim = some dt)
    (h : extract_typedef r pn pb = .ok out) :
    ∃ sz off B es, pyIntDec r.size = some sz ∧
      pyIntBase16 r.addressOffset = some off ∧ pyIntBase16 pb = some B ∧
      fieldEntries r.fields = .ok es ∧
      out = arrayOutput pn r.name sz (B + off) es := by
  simp only [extract_typedef, hdim] at h
  cases h1 : pyIntDec dt with
  | none => rw [h1] at h; simp [pyInt1, exBind] at h
  | some d =>
  rw [h1] at h
  simp only [pyInt1, exBind] at h
  cases h2 : r.dimIncrement with
  | none => rw [h2] at h; simp [elemText, exBind] at h
  | some inc =>
  rw [h2] at h
  simp only [elemText, exBind] at h
  cases h3 : pyIntBase0 inc with
  | none => rw [h3] at h; simp [pyInt1, exBind] at h
  | some incv =>
  rw [h3] at h
  simp only [pyInt1, exBind] at h
  cases h4 : r.dimIndex with
  | none => rw [h4] at h; simp [elemText, exBind] at h
  | some idx =>
  rw [h4] at h
  simp only [elemText, exBind] at h
  cases h5 : pyIntDec r.size with
  | none => rw [h5] at h; simp [pyInt1, exBind] at h
  | some sz =>
  rw [h5] at h
  simp only [pyInt1, exBind] at h
  cases h6 : pyIntBase16 r.addressOffset with
  | none => rw [h6] at h; simp [pyInt1, exBind] at h
  | some off =>
  rw [h6] at h
  simp only [pyInt1, exBind] at h
  cases h7 : pyIntBase16 pb with
  | none => rw [h7] at h; simp [pyInt1, exBind] at h
  | some B =>
  rw [h7] at h
  simp only [pyInt1, exBind] at h
  cases h8 : fieldEntries r.fields with
  | error e => rw [h8] at h; simp [exBind] at h
  | ok es =>
  rw [h8] at h
  simp only [exBind] at h
  injection h with hout
  exact ⟨sz, off, B, es, rfl, rfl, rfl, rfl, hout.symm⟩

theorem extract_typedef_scalar_ok {r : RegisterElem} {pn pb : String}
    {out : List String} (hdim : r.dim = none)
    (h : extract_typedef r pn pb = .ok out) :
    ∃ sz off B es, scalarSizeParse r.size = some sz ∧
      pyIntBase16 pb = some B ∧ pyIntBase16 r.addressOffset = some off ∧
      fieldEntries r.fields = .ok es ∧
      out = scalarOutput pn r.name sz (B + off) es := by
  simp only [extract_typedef, hdim] at h
  cases h1 : scalarSizeParse r.size with
  | none => rw [h1] at h; simp [pyInt1, exBind] at h
  | some sz =>
  rw [h1] at h
  simp only [pyInt1, exBind] at h
  cases h2 : pyIntBase16 pb with
  | none => rw [h2] at h; simp [pyInt1, exBind] at h
  | some B =>
  rw [h2] at h
  simp only [pyInt1, exBind] at h
  cases h3 : pyIntBase16 r.addressOffset with
  | none => rw [h3] at h; simp [pyInt1, exBind] at h
  | some off =>
  rw [h3] at h
  simp only [pyInt1, exBind] at h
  cases h4 : fieldEntries r.fields with
  | error e => rw [h4] at h; simp [exBind] at h
  | ok es =>
  rw [h4] at h
  simp only [exBind] at h
  injection h with hout
  exact ⟨sz, off, B, es, rfl, rfl, rfl, rfl, hout.symm⟩

theorem extract_typedef_array_eval {r : RegisterElem} {pn pb dt it ix : String}
    {d inc sz off B : Int} {es : List Entry}
    (hdim : r.dim = some dt) (hd : pyIntDec dt = some d)
    (hit : r.dimIncrement = some it) (hi : pyIntBase0 it = some inc)
    (hix : r.dimIndex = some ix)
    (hsz : pyIntDec r.size = some sz)
    (hoff : pyIntBase16 r.addressOffset = some off)
    (hB : pyIntBase16 pb = some B)
    (hfe : fieldEntries r.fields = .ok es) :
    extract_typedef r pn pb = .ok (arrayOutput pn r.name sz (B + off) es) := by
  simp only [extract_typedef, hdim, hd, hit, hi, hix, hsz, hoff, hB, hfe,
    pyInt1, elemText, exBind]

theorem extract_typedef_scalar_eval {r : RegisterElem} {pn pb : String}
    {sz off B : Int} {es : List Entry}
    (hdim : r.dim = none)
    (hsz : scalarSizeParse r.size = some sz)
    (hB : pyIntBase16 pb = some B)
    (hoff : pyIntBase16 r.addressOffset = some off)
    (hfe : fieldEntries r.fields = .ok es) :
    extract_typedef r pn pb = .ok (scalarOutput pn r.name sz (B + off) es) := by
  simp only [extract_typedef, hdim, hsz, hB, hoff, hfe, pyInt1, exBind]

theorem ne_of_length_ne {s t : String} (h : s.length ≠ t.length) : s ≠ t :=
  fun hc => h (congrArg String.length hc)

theorem arrayRawLine_ne_scalarRawLine (pn rn t a : String) :
    arrayRawLine pn rn t a ≠ scalarRawLine pn rn t a := by
  apply ne_of_length_ne
  simp only [arrayRawLine, scalarRawLine, String.length_append]
  have h1 : (" ((volatile " : String).length = 12 := rfl
  have h2 : (" (*(volatile " : String).length = 13 := rfl
  rw [h1, h2]
  omega

theorem arrayBitsLine_ne_scalarBitsLine (pn rn a : String) :
    arrayBitsLine pn rn a ≠ scalarBitsLine pn rn a := by
  apply ne_of_length_ne
  simp only [arrayBitsLine, scalarBitsLine, String.length_append]
  have h1 : ("bits ((volatile " : String).length = 16 := rfl
  have h2 : ("bits (*(volatile " : String).length = 17 := rfl
  rw [h1, h2]
  omega

/-- Claim C2 is contradicted by the code: for the overlapping fields of
`overlapReg` the source does not fail; it returns a complete text block
for the register, which even contains a negative-width reserved member. -/
theorem overlap_register_still_emitted :
    extract_typedef overlapReg "P" "0x0" = .ok
      ["typedef struct __attribute__((__packed__)) \x7b",
       "    uint8_t A    : 4;",
       "    uint8_t : -2;",
       "    uint8_t B    : 4;",
       "    uint8_t : 2;",
       "\x7d P_Rbits_t;",
       "#define P_R (*(volatile uint8_t *)0x0)",
       "#define P_Rbits (*(volatile P_Rbits_t *)0x0)"] := rfl

/-- Claim C3: an array register (dim present) renders un-dereferenced
volatile pointer access lines at the absolute address base plus offset,
and those lines differ from the dereferenced scalar forms even for the
same names, storage type and address. -/
theorem array_macros_undereferenced (r : RegisterElem) (pn pb dt it ix : String)
    (d inc sz off B : Int) (es : List Entry)
    (hdim : r.dim = some dt) (hd : pyIntDec dt = some d)
    (hit : r.dimIncrement = some it) (hi : pyIntBase0 it = some inc)
    (hix : r.dimIndex = some ix)
    (hsz : pyIntDec r.size = some sz)
    (hoff : pyIntBase16 r.addressOffset = some off)
    (hB : pyIntBase16 pb = some B)
    (hfe : fieldEntries r.fields = .ok es) :
    extract_typedef r pn pb = .ok
      ([typedefOpenLine] ++
       (layoutMembers es sz).map (renderMemberArray (get_register_type sz)) ++
       [typedefCloseLine pn r.name,
        arrayRawLine pn r.name (get_register_type sz) (pyHex (B + off)),
        arrayBitsLine pn r.name (pyHex (B + off))]) ∧
    arrayRawLine pn r.name (get_register_type sz) (pyHex (B + off)) ≠
      scalarRawLine pn r.name (get_register_type sz) (pyHex (B + off)) ∧
    arrayBitsLine pn r.name (pyHex (B + off)) ≠
      scalarBitsLine pn r.name (pyHex (B + off)) :=
  ⟨extract_typedef_array_eval hdim hd hit hi hix hsz hoff hB hfe,
   arrayRawLine_ne_scalarRawLine pn r.name (get_register_type sz) (pyHex (B + off)),
   arrayBitsLine_ne_scalarBitsLine pn r.name (pyHex (B + off))⟩

/-- Concrete instance of the array access lines at base 0x40001000 and
offset 0x40. -/
theorem array_macros_undereferenced_instance :
    extract_typedef regC3 "TMR" "0x40001000" = .ok
      ([typedefOpenLine] ++
       (layoutMembers [] 16).map (renderMemberArray (get_register_type 16)) ++
       [typedefCloseLine "TMR" regC3.name,
        arrayRawLine "TMR" regC3.name (get_register_type 16) (pyHex (0x40001000 + 0x40)),
        arrayBitsLine "TMR" regC3.name (pyHex (0x40001000 + 0x40))]) ∧
    arrayRawLine "TMR" regC3.name (get_register_type 16) (pyHex (0x40001000 + 0x40)) ≠
      scalarRawLine "TMR" regC3.name (get_register_type 16) (pyHex (0x40001000 + 0x40)) ∧
    arrayBitsLine "TMR" regC3.name (pyHex (0x40001000 + 0x40)) ≠
      scalarBitsLine "TMR" regC3.name (pyHex (0x40001000 + 0x40)) :=
  array_macros_undereferenced regC3 "TMR" "0x40001000" "4" "0x10" "0-3"
    4 16 16 0x40 0x40001000 [] rfl rfl rfl rfl rfl rfl rfl rfl rfl

/-- Claim C4: a scalar register (no dim) renders dereferenced volatile
pointer access lines at the absolute address base plus offset. -/
theorem scalar_macros_dereferenced (r : RegisterElem) (pn pb : String)
    (sz B off : Int) (es : List Entry)
    (hdim : r.dim = none)
    (hsz : scalarSizeParse r.size = some sz)
    (hB : pyIntBase16 pb = some B)
    (hoff : pyIntBase16 r.addressOffset = some off)
    (hfe : fieldEntries r.fields = .ok es) :
    extract_typedef r pn pb = .ok
      ([typedefOpenLine] ++
       (layoutMembers es sz).map (renderMemberScalar (get_register_type sz)) ++
       [typedefCloseLine pn r.name,
        scalarRawLine pn r.name (get_register_type sz) (pyHex (B + off)),
        scalarBitsLine pn r.name (pyHex (B + off))]) :=
  extract_typedef_scalar_eval hdim hsz hB hoff hfe

/-- Concrete instance of the dereferenced scalar lines: base 0x40000000,
offset 0x10 and size 16 give a dereference of 0x40000010 at uint16_t. -/
theorem scalar_macros_dereferenced_instance :
    extract_typedef scalarReg16 "P" "0x40000000" = .ok
      ([typedefOpenLine] ++
       (layoutMembers [] 16).map (renderMemberScalar (get_register_type 16)) ++
       [typedefCloseLine "P" scalarReg16.name,
        scalarRawLine "P" scalarReg16.name (get_register_type 16) (pyHex (0x40000000 + 0x10)),
        scalarBitsLine "P" scalarReg16.name (pyHex (0x40000000 + 0x10))]) ∧
    scalarRawLine "P" scalarReg16.name (get_register_type 16) (pyHex (0x40000000 + 0x10)) =
      "#define P_R (*(volatile uint16_t *)0x40000010)" :=
  ⟨scalar_macros_dereferenced scalarReg16 "P" "0x40000000" 16 0x40000000 0x10 []
    rfl rfl rfl rfl rfl, rfl⟩

/-- Claim C6 as stated is refuted for array registers: the array branch
parses size with a decimal-only int call, so a 0x literal raises a
ValueError instead of being parsed by the hexadecimal fallback. -/
theorem hex_size_fallback_counterexample :
    extract_typedef hexSizeArrayReg "P" "0x0" = .error "ValueError" := rfl

/-- Claim C6 amended: only in the scalar branch does a size text that
fails the decimal parse fall back to the hexadecimal parse, the storage
type being resolved from the resulting value. -/
theorem hex_size_fallback_scalar (r : RegisterElem) (pn pb : String)
    (sz B off : Int) (es : List Entry)
    (hdim : r.dim = none)
    (hdec : pyIntDec r.size = none)
    (hhex : pyIntBase16 r.size = some sz)
    (hB : pyIntBase16 pb = some B)
    (hoff : pyIntBase16 r.addressOffset = some off)
    (hfe : fieldEntries r.fields = .ok es) :
    extract_typedef r pn pb = .ok
      ([typedefOpenLine] ++
       (layoutMembers es sz).map (renderMemberScalar (get_register_type sz)) ++
       [typedefCloseLine pn r.name,
        scalarRawLine pn r.name (get_register_type sz) (pyHex (B + off)),
        scalarBitsLine pn r.name (pyHex (B + off))]) := by
  have hsz : scalarSizeParse r.size = some sz := by
    unfold scalarSizeParse
    rw [hdec, hhex]
  exact extract_typedef_scalar_eval hdim hsz hB hoff hfe

/-- Concrete instance of the scalar hexadecimal size fallback: size text
0x20 resolves to the 32-bit storage type. -/
theorem hex_size_fallback_scalar_instance :
    pyIntDec "0x20" = none ∧ pyIntBase16 "0x20" = some 32 ∧
    extract_typedef hexSizeScalarReg "P" "0x0" = .ok
      ([typedefOpenLine] ++
       (layoutMembers [] 32).map (renderMemberScalar (get_register_type 32)) ++
       [typedefCloseLine "P" hexSizeScalarReg.name,
        scalarRawLine "P" hexSizeScalarReg.name (get_register_type 32) (pyHex (0 + 0)),
        scalarBitsLine "P" hexSizeScalarReg.name (pyHex (0 + 0))]) :=
  ⟨rfl, rfl, hex_size_fallback_scalar hexSizeScalarReg "P" "0x0" 32 0 0 []
    rfl rfl rfl rfl rfl rfl⟩

/-- Claim C10: the rendered text of an array register does not depend on
the values of the dim, dimIncrement and dimIndex texts; two registers
equal in every other component produce identical output whenever both
render successfully. -/
theorem array_output_independent_of_dim (r1 r2 : RegisterElem) (pn pb dt1 dt2 : String)
    (out1 out2 : List String)
    (hname : r1.name = r2.name) (hsize : r1.size = r2.size)
    (hoff : r1.addressOffset = r2.addressOffset) (hfields : r1.fields = r2.fields)
    (hd1 : r1.dim = some dt1) (hd2 : r2.dim = some dt2)
    (h1 : extract_typedef r1 pn pb = .ok out1)
    (h2 : extract_typedef r2 pn pb = .ok out2) :
    out1 = out2 := by
  obtain ⟨sz1, off1, B1, es1, ha1, ha2, ha3, ha4, ha5⟩ := extract_typedef_array_ok hd1 h1
  obtain ⟨sz2, off2, B2, es2, hb1, hb2, hb3, hb4, hb5⟩ := extract_typedef_array_ok hd2 h2
  rw [hsize, hb1] at ha1
  rw [hoff, hb2] at ha2
  rw [hb3] at ha3
  rw [hfields, hb4] at ha4
  injection ha1 with e1
  injection ha2 with e2
  injection ha3 with e3
  injection ha4 with e4
  rw [ha5, hb5, hname, ← e1, ← e2, ← e3, ← e4]

/-- Concrete instance: `dimRegA` and `dimRegB` differ only in dim,
dimIncrement and dimIndex and render to the same text. -/
theorem array_output_independent_of_dim_instance :
    extract_typedef dimRegA "P" "0x0" = extract_typedef dimRegB "P" "0x0" ∧
    extract_typedef dimRegA "P" "0x0" = .ok (arrayOutput "P" "R" 8 0 []) := by
  have h1 : extract_typedef dimRegA "P" "0x0" = .ok (arrayOutput "P" "R" 8 0 []) := rfl
  have h2 : extract_typedef dimRegB "P" "0x0" = .ok (arrayOutput "P" "R" 8 0 []) := rfl
  have h3 := array_output_independent_of_dim dimRegA dimRegB "P" "0x0" "2" "7"
    (arrayOutput "P" "R" 8 0 []) (arrayOutput "P" "R" 8 0 [])
    rfl rfl rfl rfl rfl rfl h1 h2
  exact ⟨h1.trans ((congrArg Except.ok h3).trans h2.symm), h1⟩

/-- Claim C5: a peripheral deriving from an existing one emits exactly the
original peripheral's register set, rendered under the derived
peripheral's name and base address; for each register both emissions share
the same storage size and layout entries, differing only in the
peripheral name and the absolute address. -/
theorem derived_peripheral_uses_original_registers (doc : List PeripheralElem)
    (p2 p1 : PeripheralElem) (df : String)
    (hdf : p2.derivedFrom = some df) (hne : df ≠ "")
    (hfind : doc.find? (fun q => q.name = df) = some p1) :
    emitPeripheral doc p2 =
      .ok (p1.registers.map (fun r => extract_typedef r p2.name p2.baseAddress)) ∧
    ∀ r ∈ p1.registers, ∀ out1 out2,
      extract_typedef r p1.name p1.baseAddress = .ok out1 →
      extract_typedef r p2.name p2.baseAddress = .ok out2 →
      ∃ sz addr1 addr2 es,
        out1 = renderedWith r.dim.isSome p1.name r.name sz addr1 es ∧
        out2 = renderedWith r.dim.isSome p2.name r.name sz addr2 es := by
  constructor
  · simp only [emitPeripheral, hdf]
    rw [if_neg hne, hfind]
  · intro r _ out1 out2 h1 h2
    cases hd : r.dim with
    | none =>
      obtain ⟨sz1, off1, B1, es1, ha1, ha2, ha3, ha4, ha5⟩ := extract_typedef_scalar_ok hd h1
      obtain ⟨sz2, off2, B2, es2, hb1, hb2, hb3, hb4, hb5⟩ := extract_typedef_scalar_ok hd h2
      rw [hb1] at ha1
      rw [hb3] at ha3
      rw [hb4] at ha4
      injection ha1 with e1
      injection ha3 with e3
      injection ha4 with e4
      refine ⟨sz1, B1 + off1, B2 + off2, es1, ?_, ?_⟩
      · rw [ha5]
        simp [renderedWith, hd]
      · rw [hb5]
        simp [renderedWith, hd, ← e1, ← e3, ← e4]
    | some dt =>
      obtain ⟨sz1, off1, B1, es1, ha1, ha2, ha3, ha4, ha5⟩ := extract_typedef_array_ok hd h1
      obtain ⟨sz2, off2, B2, es2, hb1, hb2, hb3, hb4, hb5⟩ := extract_typedef_array_ok hd h2
      rw [hb1] at ha1
      rw [hb2] at ha2
      rw [hb4] at ha4
      injection ha1 with e1
      injection ha2 with e2
      injection ha4 with e4
      refine ⟨sz1, B1 + off1, B2 + off2, es1, ?_, ?_⟩
      · rw [ha5]
        simp [renderedWith, hd]
      · rw [hb5]
        simp [renderedWith, hd, ← e1, ← e2, ← e4]

/-- Concrete instance of the derived-peripheral resolution on `docEx`. -/
theorem derived_peripheral_instance :
    emitPeripheral docEx uart1P =
      .ok (uart0P.registers.map
        (fun r => extract_typedef r uart1P.name uart1P.baseAddress)) ∧
    ∀ r ∈ uart0P.registers, ∀ out1 out2,
      extract_typedef r uart0P.name uart0P.baseAddress = .ok out1 →
      extract_typedef r uart1P.name uart1P.baseAddress = .ok out2 →
      ∃ sz addr1 addr2 es,
        out1 = renderedWith r.dim.isSome uart0P.name r.name sz addr1 es ∧
        out2 = renderedWith r.dim.isSome uart1P.name r.name sz addr2 es :=
  derived_peripheral_uses_original_registers docEx uart1P uart0P "UART0"
    rfl (by decide) rfl
